import Mathlib

/-!
Verification development for the compiler_monitor repository (src/main.rs).

The Rust source is shallowly embedded below.  Pure string processing is
translated to executable Lean functions over `String` / `List Char`; the
file system is modelled as a partial map from path strings to byte lists;
the scan loop is modelled as a fold over per-tick inputs.  Machine
integers (the `u64` counters) are `Nat` with explicit `< 2 ^ 64` bounds
where the source's `parse::<u64>` can fail.

Modelling notes, applying throughout:
* Rust `char`-classification and case-conversion helpers (`to_lowercase`,
  `trim`, regex `\s` and `\d`) are Unicode-aware; they are modelled by
  their ASCII behaviour (`Char.toLower`, ASCII whitespace, ASCII digits),
  which coincides with Rust on every ASCII input.  All concrete inputs
  used in the theorems are ASCII.
* Windows `PathBuf` semantics (`is_absolute`, `join`) are modelled for
  drive-letter paths, root-relative paths and UNC prefixes, the forms the
  spec and tests exercise.
* `Vec::sort_by` is a stable sort; it is modelled by `List.insertionSort`,
  which is stable with respect to the comparator in the same sense.
-/

/-! ## Basic character and string helpers -/

/-- ASCII whitespace test, modelling Rust regex `\s` and `str::trim`
(restricted to ASCII; both are Unicode-aware in Rust). -/
def isWs (c : Char) : Bool :=
  c = ' ' ∨ c = '\t' ∨ c = '\n' ∨ c = '\r' ∨ c = '\x0b' ∨ c = '\x0c'

/-- Decimal digit characters of a natural number, with explicit fuel so the
definition is structurally recursive and kernel-reducible.  `decDigitsAux`
is only meaningful when `fuel > n`; `decDigits` supplies `n + 1`. -/
def decDigitsAux : Nat → Nat → List Char
  | 0, _ => []
  | fuel + 1, n =>
    if n < 10 then [Char.ofNat (48 + n)]
    else decDigitsAux fuel (n / 10) ++ [Char.ofNat (48 + n % 10)]

/-- Decimal representation of a natural number, as Rust `format!("{}")`
prints it. -/
def decDigits (n : Nat) : List Char :=
  decDigitsAux (n + 1) n

/-- Numeric value of a digit string, as Rust `str::parse` computes it
(the caller checks the digit property and the `u64` range). -/
def parseDigits (ds : List Char) : Nat :=
  ds.foldl (fun a c => a * 10 + (c.toNat - 48)) 0

/-- Zero-padding to width six, modelling Rust `format!("{:06}", n)`. -/
def pad6 (n : Nat) : List Char :=
  List.replicate (6 - (decDigits n).length) '0' ++ decDigits n

/-- ASCII decimal digit test; the counter-file regexes' `\d` only yields a
parseable `u64` capture on ASCII digits (a capture with any non-ASCII
digit fails `parse::<u64>` and contributes nothing, which coincides with
this model). -/
def isDigitChar (c : Char) : Bool :=
  48 ≤ c.toNat ∧ c.toNat ≤ 57

/-! ## Windows path model

Models `Path::is_absolute` and `PathBuf::join` for the path shapes the
program handles: drive-letter paths (`C:\x`, `C:/x`), root-relative paths
(`\x`), UNC paths (`\\server\share`) and plain relative paths. -/

/-- True when the character is a path separator on Windows. -/
def isSep (c : Char) : Bool := c = '\\' ∨ c = '/'

/-- Model of Windows `Path::is_absolute`: a drive-letter prefix followed by
a root separator, or a UNC prefix. -/
def isAbsolutePath (s : String) : Bool :=
  match s.data with
  | a :: ':' :: c :: _ => a.isAlpha ∧ isSep c
  | '\\' :: '\\' :: _ => true
  | _ => false

/-- Drive-letter prefix of a path (`"C:"`), or `""` when there is none. -/
def drivePrefix (s : String) : String :=
  match s.data with
  | a :: ':' :: _ => if a.isAlpha then ⟨[a, ':']⟩ else ""
  | _ => ""

/-- Model of `PathBuf::from(wd).join(rel).to_string_lossy()` for a relative
or root-relative `rel` (the program checks `is_absolute` before joining). -/
def joinPath (wd rel : String) : String :=
  match rel.data with
  | c :: _ =>
    if isSep c then drivePrefix wd ++ rel
    else if wd = "" then rel
    else match wd.data.getLast? with
      | some l => if isSep l then wd ++ rel else wd ++ "\\" ++ rel
      | none => rel
  | [] => wd

/-- Resolution step shared by the expander and the extractor: keep an
absolute path, join a relative one onto the working directory. -/
def resolveMaybe (wd p : String) : String :=
  if isAbsolutePath p then p else joinPath wd p

/-! ## Argument tokenizer (`parse_arguments`, main.rs lines 352-376) -/

/-- One step of the tokenizer loop: `"` toggles quote mode and is never
emitted; a space outside quotes ends the current argument (empty arguments
are not pushed); every other character is appended to the current
argument.  State: (finished args, current arg, in quotes). -/
def argStep (st : List (List Char) × List Char × Bool) (c : Char) :
    List (List Char) × List Char × Bool :=
  if c = '"' then (st.1, st.2.1, !st.2.2)
  else if c = ' ' ∧ !st.2.2 then
    (if st.2.1 = [] then st else (st.1 ++ [st.2.1], [], st.2.2))
  else (st.1, st.2.1 ++ [c], st.2.2)

/-- Tokenizer state after consuming the whole command string. -/
def parseState (command : String) : List (List Char) × List Char × Bool :=
  command.data.foldl argStep ([], [], false)

/-- Embedding of `CompilerMonitor::parse_arguments`: fold the step over the
command line, then push the trailing argument if it is nonempty. -/
def parse_arguments (command : String) : List String :=
  let st := parseState command
  (if st.2.1 = [] then st.1 else st.1 ++ [st.2.1]).map (fun l => ⟨l⟩)

/-! ## Response-file token detection (`expand_response_files`, regex `@([^\s]+)`) -/

/-- Non-overlapping matches of `@([^\s]+)` against the character list, with
fuel for kernel-reducible recursion (`fuel > cs.length` suffices: every
step consumes at least one character). -/
def findTokensAux : Nat → List Char → List (List Char)
  | 0, _ => []
  | _ + 1, [] => []
  | fuel + 1, c :: rest =>
    if c = '@' then
      let tok := rest.takeWhile (fun d => !isWs d)
      if tok = [] then findTokensAux fuel rest
      else tok :: findTokensAux fuel (rest.drop tok.length)
    else findTokensAux fuel rest

/-- Embedding of the `captures_iter` pass of `expand_response_files`: the
list of `<path>` capture groups of `@([^\s]+)`, in match order, taken from
the untouched original command line. -/
def findTokens (command : String) : List String :=
  (findTokensAux (command.data.length + 1) command.data).map (fun l => ⟨l⟩)

/-! ## Response-file decoding (`expand_response_files`, main.rs lines 249-277) -/

/-- Continuation-byte test for strict UTF-8 validation. -/
def isCont (b : Nat) : Bool := 128 ≤ b ∧ b ≤ 191

/-- Strict UTF-8 decoding, modelling Rust `String::from_utf8`: the standard
DFA, rejecting overlong forms, surrogates and values above `U+10FFFF`.
Returns `none` exactly when Rust's validation fails. -/
def utf8DecodeAux : List Nat → Option (List Char)
  | [] => some []
  | b :: rest =>
    if b ≤ 127 then (utf8DecodeAux rest).map (fun cs => Char.ofNat b :: cs)
    else if 194 ≤ b ∧ b ≤ 223 then
      match rest with
      | b1 :: rest1 =>
        if isCont b1 then
          (utf8DecodeAux rest1).map (fun cs => Char.ofNat ((b - 192) * 64 + (b1 - 128)) :: cs)
        else none
      | [] => none
    else if 224 ≤ b ∧ b ≤ 239 then
      match rest with
      | b1 :: b2 :: rest2 =>
        let lo1 := if b = 224 then 160 else 128
        let hi1 := if b = 237 then 159 else 191
        if (lo1 ≤ b1 ∧ b1 ≤ hi1) ∧ isCont b2 then
          (utf8DecodeAux rest2).map (fun cs =>
            Char.ofNat ((b - 224) * 4096 + (b1 - 128) * 64 + (b2 - 128)) :: cs)
        else none
      | _ => none
    else if 240 ≤ b ∧ b ≤ 244 then
      match rest with
      | b1 :: b2 :: b3 :: rest3 =>
        let lo1 := if b = 240 then 144 else 128
        let hi1 := if b = 244 then 143 else 191
        if (lo1 ≤ b1 ∧ b1 ≤ hi1) ∧ isCont b2 ∧ isCont b3 then
          (utf8DecodeAux rest3).map (fun cs =>
            Char.ofNat ((b - 240) * 262144 + (b1 - 128) * 4096 + (b2 - 128) * 64 + (b3 - 128)) :: cs)
        else none
      | _ => none
    else none

/-- Strict UTF-8 decoding to a string (`String::from_utf8`). -/
def utf8Decode (bytes : List Nat) : Option String :=
  (utf8DecodeAux bytes).map (fun cs => ⟨cs⟩)

/-- Little-endian pairing of bytes into 16-bit units, modelling
`chunks_exact(2)` plus `u16::from_le_bytes`; a trailing odd byte is
dropped, as `chunks_exact` drops it. -/
def toU16LE : List Nat → List Nat
  | b0 :: b1 :: rest => (b0 + 256 * b1) :: toU16LE rest
  | _ => []

/-- Lossy UTF-16 decoding of 16-bit units, modelling
`String::from_utf16_lossy`: surrogate pairs are combined, lone surrogates
become `U+FFFD`. -/
def utf16Lossy : List Nat → List Char
  | [] => []
  | [u] =>
    if u < 55296 ∨ 57344 ≤ u then [Char.ofNat u] else [Char.ofNat 65533]
  | u :: v :: rest =>
    if u < 55296 ∨ 57344 ≤ u then Char.ofNat u :: utf16Lossy (v :: rest)
    else if u ≤ 56319 then
      if 56320 ≤ v ∧ v ≤ 57343 then
        Char.ofNat (65536 + (u - 55296) * 1024 + (v - 56320)) :: utf16Lossy rest
      else Char.ofNat 65533 :: utf16Lossy (v :: rest)
    else Char.ofNat 65533 :: utf16Lossy (v :: rest)

/-- Length of the maximal valid prefix of one UTF-8 sequence starting at a
byte at which strict decoding fails (at least one byte is consumed); this
is the unit Rust's `String::from_utf8_lossy` replaces with `U+FFFD`. -/
def utf8InvalidLen (b : Nat) (rest : List Nat) : Nat :=
  if 224 ≤ b ∧ b ≤ 239 then
    match rest with
    | b1 :: _ =>
      let lo1 := if b = 224 then 160 else 128
      let hi1 := if b = 237 then 159 else 191
      if lo1 ≤ b1 ∧ b1 ≤ hi1 then 2 else 1
    | [] => 1
  else if 240 ≤ b ∧ b ≤ 244 then
    match rest with
    | b1 :: rest1 =>
      let lo1 := if b = 240 then 144 else 128
      let hi1 := if b = 244 then 143 else 191
      if lo1 ≤ b1 ∧ b1 ≤ hi1 then
        match rest1 with
        | b2 :: _ => if isCont b2 then 3 else 2
        | [] => 2
      else 1
    | [] => 1
  else 1

/-- Lossy UTF-8 decoding, modelling `String::from_utf8_lossy`: valid
sequences decode as in `utf8DecodeAux`; each maximal invalid subpart
becomes one `U+FFFD`.  Fuel makes the variable-advance recursion
structural (`fuel > bytes.length` suffices: every step consumes at least
one byte). -/
def utf8LossyAux : Nat → List Nat → List Char
  | 0, _ => []
  | _ + 1, [] => []
  | fuel + 1, b :: rest =>
    if b ≤ 127 then Char.ofNat b :: utf8LossyAux fuel rest
    else if 194 ≤ b ∧ b ≤ 223 then
      match rest with
      | b1 :: rest1 =>
        if isCont b1 then
          Char.ofNat ((b - 192) * 64 + (b1 - 128)) :: utf8LossyAux fuel rest1
        else Char.ofNat 65533 :: utf8LossyAux fuel rest
      | [] => [Char.ofNat 65533]
    else if 224 ≤ b ∧ b ≤ 239 then
      match rest with
      | b1 :: b2 :: rest2 =>
        let lo1 := if b = 224 then 160 else 128
        let hi1 := if b = 237 then 159 else 191
        if (lo1 ≤ b1 ∧ b1 ≤ hi1) ∧ isCont b2 then
          Char.ofNat ((b - 224) * 4096 + (b1 - 128) * 64 + (b2 - 128)) ::
            utf8LossyAux fuel rest2
        else Char.ofNat 65533 :: utf8LossyAux fuel (rest.drop (utf8InvalidLen b rest - 1))
      | _ => Char.ofNat 65533 :: utf8LossyAux fuel (rest.drop (utf8InvalidLen b rest - 1))
    else if 240 ≤ b ∧ b ≤ 244 then
      match rest with
      | b1 :: b2 :: b3 :: rest3 =>
        let lo1 := if b = 240 then 144 else 128
        let hi1 := if b = 244 then 143 else 191
        if (lo1 ≤ b1 ∧ b1 ≤ hi1) ∧ isCont b2 ∧ isCont b3 then
          Char.ofNat ((b - 240) * 262144 + (b1 - 128) * 4096 + (b2 - 128) * 64 + (b3 - 128)) ::
            utf8LossyAux fuel rest3
        else Char.ofNat 65533 :: utf8LossyAux fuel (rest.drop (utf8InvalidLen b rest - 1))
      | _ => Char.ofNat 65533 :: utf8LossyAux fuel (rest.drop (utf8InvalidLen b rest - 1))
    else Char.ofNat 65533 :: utf8LossyAux fuel rest

/-- Lossy UTF-8 decoding to a string (`String::from_utf8_lossy(..).to_string()`). -/
def utf8Lossy (bytes : List Nat) : String :=
  ⟨utf8LossyAux (bytes.length + 1) bytes⟩

/-- True when the byte list starts with the UTF-16LE byte-order mark, the
condition `bytes.len() >= 2 && bytes[0] == 0xFF && bytes[1] == 0xFE` of the
source. -/
def hasUtf16LEBom : List Nat → Bool
  | 255 :: 254 :: _ => true
  | _ => false

/-- Embedding of the ordered decoding fallback of `expand_response_files`
(main.rs lines 249-277): strict UTF-8 first; else UTF-16LE after a BOM;
else UTF-16LE when the byte length is even; else lossy UTF-8. -/
def decodeResponseBytes (bytes : List Nat) : String :=
  match utf8Decode bytes with
  | some s => s
  | none =>
    if hasUtf16LEBom bytes then ⟨utf16Lossy (toU16LE (bytes.drop 2))⟩
    else if bytes.length % 2 = 0 then ⟨utf16Lossy (toU16LE bytes)⟩
    else utf8Lossy bytes

/-! ## Response-file content normalization and substitution -/

/-- Lines of a string, modelling Rust `str::lines`: pieces are separated by
`'\n'`, one trailing `'\r'` per line is removed, and a final empty piece
after a trailing newline is not produced. -/
def linesAux : List Char → List Char → List (List Char)
  | cur, [] => if cur = [] then [] else [cur]
  | cur, '\n' :: rest =>
    (if cur.getLast? = some '\r' then cur.dropLast else cur) :: linesAux [] rest
  | cur, c :: rest => linesAux (cur ++ [c]) rest

/-- Rust `str::lines`, including the dangling-`'\r'` strip on the last
line. -/
def linesOf (s : String) : List (List Char) :=
  (linesAux [] s.data).map (fun l => if l.getLast? = some '\r' then l.dropLast else l)

/-- Rust `str::trim` restricted to ASCII whitespace. -/
def trimWs (l : List Char) : List Char :=
  ((l.dropWhile isWs).reverse.dropWhile isWs).reverse

/-- Normalization applied to decoded response-file content before it is
spliced into the command line: trim every line, drop empty lines, rejoin
with single spaces (main.rs lines 292-297). -/
def cleanedContents (contents : String) : String :=
  ⟨List.intercalate [' '] (((linesOf contents).map trimWs).filter (fun l => l ≠ []))⟩

/-- Replacement of every non-overlapping occurrence of `pat` in the text,
modelling Rust `str::replace`; fuel makes the variable advance structural
(`fuel > text.length` suffices: `pat` is nonempty, so every step consumes
at least one character). -/
def replaceAllAux (pat rep : List Char) : Nat → List Char → List Char
  | 0, text => text
  | _ + 1, [] => []
  | fuel + 1, c :: rest =>
    if pat.isPrefixOf (c :: rest) then rep ++ replaceAllAux pat rep fuel (rest.drop (pat.length - 1))
    else c :: replaceAllAux pat rep fuel rest

/-- Rust `str::replace` for a nonempty pattern (every pattern the program
builds is `"@" ++ token` with a nonempty token). -/
def replaceAll (text pat rep : String) : String :=
  if pat.data = [] then text
  else ⟨replaceAllAux pat.data rep.data (text.data.length + 1) text.data⟩

/-! ## Response-file expansion (`expand_response_files`, main.rs lines 230-304)

The file system is a partial map from resolved path strings to byte lists.
`save_response_file` (lines 306-319) is modelled by accumulating the
decoded content, verbatim, in the order of archiving; its sequence-number
naming is covered by the counter model below. -/

/-- One token's expansion step: resolve the token against the working
directory, read and decode the file; on read failure leave the command
text unchanged (`continue`); on success archive the decoded content
verbatim, then splice the normalized content over every occurrence of the
original `@token` text. -/
def expandTokenStep (fs : String → Option (List Nat)) (wd : String)
    (st : String × List String) (tok : String) : String × List String :=
  match fs (resolveMaybe wd tok) with
  | none => st
  | some bytes =>
    let contents := decodeResponseBytes bytes
    (replaceAll st.1 ("@" ++ tok) (cleanedContents contents), st.2 ++ [contents])

/-- Expansion of a given token list over the command line, in the given
order (the source iterates the match list in match order). -/
def expandTokens (fs : String → Option (List Nat)) (wd : String)
    (toks : List String) (command : String) : String × List String :=
  toks.foldl (expandTokenStep fs wd) (command, [])

/-- Embedding of `CompilerMonitor::expand_response_files`: find all
`@<path>` tokens in the original command line, then expand each in match
order.  First component: the expanded command line; second: the archived
response-file contents in archive order. -/
def expand_response_files (fs : String → Option (List Nat))
    (command wd : String) : String × List String :=
  expandTokens fs wd (findTokens command) command

/-! ## Source-file extraction (`extract_all_source_files`, main.rs lines 321-350) -/

/-- Rust `str::trim_matches('"')`: strip every leading and trailing
double-quote character. -/
def trimQuotes (l : List Char) : List Char :=
  ((l.dropWhile (fun c => c = '"')).reverse.dropWhile (fun c => c = '"')).reverse

/-- Source-file suffixes tested by the program, in source order; the
final `".C"` entry is tested against the lowercased token. -/
def sourceExtensions : List (List Char) :=
  [".c".data, ".cpp".data, ".cc".data, ".cxx".data, ".c++".data, ".C".data]

/-- Per-argument test and resolution of `extract_all_source_files`: strip
quotes, lowercase, test the suffixes, and resolve survivors against the
working directory. -/
def extractStep (wd : String) (acc : List String) (arg : String) : List String :=
  let clean := trimQuotes arg.data
  let lower := clean.map Char.toLower
  if sourceExtensions.any (fun e => e.isSuffixOf lower) then
    acc ++ [resolveMaybe wd ⟨clean⟩]
  else acc

/-- Embedding of `CompilerMonitor::extract_all_source_files`. -/
def extract_all_source_files (command wd : String) : List String :=
  (parse_arguments command).foldl (extractStep wd) []

/-- Specification-side extractor, written from the words of the claim: the
quote-aware tokens that end case-insensitively in one of `.c`, `.cpp`,
`.cc`, `.cxx`, `.c++`, resolved against the working directory, in
first-seen order with original case preserved. -/
def specExtractSourceFiles (command wd : String) : List String :=
  (parse_arguments command).filterMap (fun arg =>
    if [".c".data, ".cpp".data, ".cc".data, ".cxx".data, ".c++".data].any
        (fun e => e.isSuffixOf (arg.data.map Char.toLower)) then
      some (resolveMaybe wd arg)
    else none)

/-- A single compile command entry (struct `CompileCommand`). -/
structure CompileCommand where
  directory : String
  command : String
  file : String
deriving DecidableEq, Repr

/-- Records written by one successful `process_creation_callback` run after
expansion (main.rs lines 194-225): no record when no source file is found,
otherwise one record per source file sharing directory and expanded
command. -/
def callbackRecords (expandedCommand wd : String) : List CompileCommand :=
  let sourceFiles := extract_all_source_files expandedCommand wd
  if sourceFiles.isEmpty then []
  else sourceFiles.map (fun f => ⟨wd, expandedCommand, f⟩)

/-! ## Pattern matcher (`CompilerMonitor::new`, main.rs lines 114-120)

The construction builds a regex source string by three textual
replacements and hands `(?i)^<built>$` to `Regex::new`.  The regex engine
is modelled for the syntax such built strings can contain: literal
characters, `\<c>` escapes, `.`, and the postfix quantifiers `*` and `+`.
Metacharacters the model does not implement (`(`, `)`, `[`, `]`, `{`, `}`,
`|`, `^`, `$`, `?`) make the parse fail; no theorem below evaluates the
model on those.  The `(?i)` flag and the `^`/`$` anchors the source always
adds are modelled by case-insensitive full-string matching
(`Char.toLower` on both sides, ASCII). -/

/-- Regular-expression syntax trees for the modelled subset (`alt` only
arises internally, from the derivative of a sequence). -/
inductive RE where
  | eps : RE
  | void : RE
  | chr : Char → RE
  | dot : RE
  | seq : RE → RE → RE
  | alt : RE → RE → RE
  | star : RE → RE
deriving DecidableEq, Repr

/-- Parser for the modelled regex subset, returning the atom list in
order; postfix `*` and `+` attach to the preceding atom (`+` as
`a · a*`). -/
def parseREAux : List RE → List Char → Option (List RE)
  | acc, [] => some acc.reverse
  | acc, '*' :: rest =>
    match acc with
    | [] => none
    | a :: as1 => parseREAux (RE.star a :: as1) rest
  | acc, '+' :: rest =>
    match acc with
    | [] => none
    | a :: as1 => parseREAux (RE.seq a (RE.star a) :: as1) rest
  | acc, '\\' :: c :: rest => parseREAux (RE.chr c :: acc) rest
  | _, ['\\'] => none
  | acc, '.' :: rest => parseREAux (RE.dot :: acc) rest
  | acc, c :: rest =>
    if c ∈ ['(', ')', '[', ']', '{', '}', '|', '^', '$', '?'] then none
    else parseREAux (RE.chr c :: acc) rest

/-- Parse a regex source string into one sequential tree. -/
def parseRE (pattern : String) : Option RE :=
  (parseREAux [] pattern.data).map (fun atoms => atoms.foldr RE.seq RE.eps)

/-- Nullability of a regex tree. -/
def RE.nullable : RE → Bool
  | .eps => true
  | .void => false
  | .chr _ => false
  | .dot => false
  | .seq a b => a.nullable && b.nullable
  | .alt a b => a.nullable || b.nullable
  | .star _ => true

/-- Brzozowski derivative, comparing characters case-insensitively
(modelling the `(?i)` flag over ASCII). -/
def RE.deriv : RE → Char → RE
  | .eps, _ => .void
  | .void, _ => .void
  | .chr c, a => if c.toLower = a.toLower then .eps else .void
  | .dot, _ => .eps
  | .seq a b, x =>
    if a.nullable then .alt (.seq (a.deriv x) b) (b.deriv x)
    else .seq (a.deriv x) b
  | .alt a b, x => .alt (a.deriv x) (b.deriv x)
  | .star a, x => .seq (a.deriv x) (.star a)

/-- Full anchored match of a regex tree against a string (the `^`/`$`
anchors the construction always adds). -/
def rmatch (re : RE) (name : String) : Bool :=
  (name.data.foldl RE.deriv re).nullable

/-- Embedding of the regex-source construction of `CompilerMonitor::new`:
`pattern.replace(".", "\\.").replace("*", ".*").replace("?", ".")`. -/
def buildRegexSource (pattern : String) : String :=
  replaceAll (replaceAll (replaceAll pattern "." "\\.") "*" ".*") "?" "."

/-- Embedding of `Regex::new(format!("(?i)^{}$", built))`: parse of the
built source under the modelled subset; `none` models a construction
failure. -/
def mkPattern (pattern : String) : Option RE :=
  parseRE (buildRegexSource pattern)

/-- The monitor's process-name predicate: `some (is_match name)` when
construction succeeds, `none` when `CompilerMonitor::new` fails. -/
def patternMatches (pattern name : String) : Option Bool :=
  (mkPattern pattern).map (fun re => rmatch re name)

/-- Specification-side glob semantics, written from the spec's words:
literal characters match themselves exactly (case-insensitively), `*`
matches zero or more arbitrary characters, `?` exactly one, anchored to
the whole name.  Fuel makes the two-argument recursion structural
(`fuel > pattern.length + name.length` suffices). -/
def globMatchAux : Nat → List Char → List Char → Bool
  | 0, _, _ => false
  | _ + 1, [], [] => true
  | _ + 1, [], _ :: _ => false
  | fuel + 1, '*' :: ps, s =>
    globMatchAux fuel ps s ||
      (match s with
       | [] => false
       | _ :: s1 => globMatchAux fuel ('*' :: ps) s1)
  | fuel + 1, '?' :: ps, s =>
    match s with
    | [] => false
    | _ :: s1 => globMatchAux fuel ps s1
  | _ + 1, _ :: _, [] => false
  | fuel + 1, p :: ps, c :: s1 =>
    p.toLower = c.toLower && globMatchAux fuel ps s1

/-- Anchored, case-insensitive glob matching per the spec's description. -/
def specGlobMatches (pattern name : String) : Bool :=
  globMatchAux (pattern.data.length + name.data.length + 1) pattern.data name.data

/-! ## Cache-file counters (`find_highest_command_number` /
`find_highest_response_number`, main.rs lines 137-175)

The cache directory listing is modelled as the list of file names.  The
source matches each name against `command_(\d+)\.json$` (resp.
`response_(\d+)\.rsp$`) and parses the capture as `u64`.  Because the
character right before the capture is `_` (not a digit) and the capture is
anchored at the extension and the end, the capture of any match equals the
maximal trailing ASCII-digit run in front of the extension; the model
extracts exactly that.  A parse overflowing `u64` makes the source skip
the file, modelled by the `< 2 ^ 64` test. -/

/-- Maximal trailing digit run of a character list. -/
def takeTrailingDigits (cs : List Char) : List Char :=
  (cs.reverse.takeWhile isDigitChar).reverse

/-- The part of a character list in front of its maximal trailing digit
run. -/
def dropTrailingDigits (cs : List Char) : List Char :=
  (cs.reverse.dropWhile isDigitChar).reverse

/-- Capture-and-parse of one directory entry against
`<stem>(\d+)<ext>$`: the numeric suffix of the file name under the given
naming convention, or `none` when the name does not match or the number
does not fit in `u64`.  Because the stem ends in `_` (not a digit) and the
capture is anchored at the extension and the end of the name, the capture
group of any regex match is exactly the maximal trailing digit run in
front of the extension. -/
def fileNumberOf (stem ext : String) (name : String) : Option Nat :=
  if ext.data.isSuffixOf name.data then
    if takeTrailingDigits (name.data.take (name.data.length - ext.data.length)) ≠ [] ∧
        stem.data.isSuffixOf
          (dropTrailingDigits (name.data.take (name.data.length - ext.data.length))) then
      if parseDigits (takeTrailingDigits
          (name.data.take (name.data.length - ext.data.length))) < 2 ^ 64 then
        some (parseDigits (takeTrailingDigits
          (name.data.take (name.data.length - ext.data.length))))
      else none
    else none
  else none

/-- Embedding of `CompilerMonitor::find_highest_command_number`: the
maximum numeric suffix over all entries matching `command_(\d+)\.json$`,
starting from `0`. -/
def find_highest_command_number (files : List String) : Nat :=
  files.foldl (fun h f =>
    match fileNumberOf "command_" ".json" f with
    | some n => max h n
    | none => h) 0

/-- Embedding of `CompilerMonitor::find_highest_response_number`. -/
def find_highest_response_number (files : List String) : Nat :=
  files.foldl (fun h f =>
    match fileNumberOf "response_" ".rsp" f with
    | some n => max h n
    | none => h) 0

/-- File name of the k-th record persisted after startup: the counter is
initialized to the highest existing number and incremented before every
use (`*counter += 1; format!("command_{:06}.json", *counter)`,
main.rs lines 212-214). -/
def commandFileName (files : List String) (k : Nat) : String :=
  "command_" ++ (⟨pad6 (find_highest_command_number files + k)⟩ : String) ++ ".json"

/-- File name of the k-th response file archived after startup
(`format!("response_{:06}.rsp", *counter)`, main.rs line 310). -/
def responseFileName (files : List String) (k : Nat) : String :=
  "response_" ++ (⟨pad6 (find_highest_response_number files + k)⟩ : String) ++ ".rsp"

/-! ## Scan loop (`monitor_with_wmi`, main.rs lines 382-464)

One tick is one pass of the outer `loop`: create a snapshot (modelled as
`Option (List ProcObs)`, `none` meaning `CreateToolhelp32Snapshot` failed),
walk the processes, then housekeeping.  `get_process_info_wmi` never
returns `Err` in the source (all of its paths produce `Ok`), so the
resolved command line is modelled as a field of the observation;
`process_creation_callback` is abstracted as a function returning
`Except String Unit` whose result the loop discards
(`let _ = monitor.process_creation_callback(...)`, line 437). -/

/-- One process observation in a snapshot: pid, executable name, and the
resolver's (command line, working directory) answer. -/
structure ProcObs where
  pid : Nat
  name : String
  cmdLine : String
  workDir : String
deriving DecidableEq, Repr

/-- Scanner state: the known-process set (`HashSet<String>` of
`"{pid}:{name}"` keys, modelled as a duplicate-free list) and the log of
capture attempts made, as `(pid, name)` pairs in order. -/
structure ScanState where
  known : List String
  captures : List (Nat × String)
deriving DecidableEq, Repr

/-- The known-set key `format!("{}:{}", pid, process_name)`. -/
def keyOf (pid : Nat) (name : String) : String :=
  (⟨decDigits pid⟩ : String) ++ ":" ++ name

/-- Per-process body of the snapshot walk (main.rs lines 427-446): a
matching, not-yet-known process is inserted into the known set and a
capture is attempted; the callback result is computed and discarded. -/
def scanProc (matchesPat : String → Bool) (cb : ProcObs → Except String Unit)
    (st : ScanState) (p : ProcObs) : ScanState :=
  if matchesPat p.name ∧ keyOf p.pid p.name ∉ st.known then
    let st1 : ScanState :=
      { known := st.known ++ [keyOf p.pid p.name]
        captures := st.captures ++ [(p.pid, p.name)] }
    let _ := if p.cmdLine ≠ "" then cb p else Except.ok ()
    st1
  else st

/-- The snapshot walk of one tick. -/
def scanPhase (matchesPat : String → Bool) (cb : ProcObs → Except String Unit)
    (procs : List ProcObs) (st : ScanState) : ScanState :=
  procs.foldl (scanProc matchesPat cb) st

/-- Housekeeping at the end of a tick (main.rs lines 457-460): clear the
known set entirely once it exceeds 10000 entries. -/
def housekeep (st : ScanState) : ScanState :=
  if st.known.length > 10000 then { st with known := [] } else st

/-- One tick of `monitor_with_wmi`: a failed snapshot propagates as a
fatal error (`CreateToolhelp32Snapshot(..).context(..)?`, lines 403-404);
otherwise walk the snapshot and run housekeeping. -/
def monitorTick (matchesPat : String → Bool) (cb : ProcObs → Except String Unit)
    (st : ScanState) (snapshot : Option (List ProcObs)) : Except String ScanState :=
  match snapshot with
  | none => Except.error "Failed to create process snapshot"
  | some procs => Except.ok (housekeep (scanPhase matchesPat cb procs st))

/-- The scan loop over a finite schedule of tick inputs. -/
def runMonitor (matchesPat : String → Bool) (cb : ProcObs → Except String Unit) :
    List (Option (List ProcObs)) → ScanState → Except String ScanState
  | [], st => Except.ok st
  | t :: ts, st =>
    match monitorTick matchesPat cb st t with
    | Except.error e => Except.error e
    | Except.ok st1 => runMonitor matchesPat cb ts st1

/-- One tracking window of the loop: successive snapshot walks with no
intervening housekeeping reset (between two full resets the housekeeping
branch is the identity, see the bridging conjunct of the dedup theorem). -/
def runWindow (matchesPat : String → Bool) (cb : ProcObs → Except String Unit)
    (ticks : List (List ProcObs)) (st : ScanState) : ScanState :=
  ticks.foldl (fun s procs => scanPhase matchesPat cb procs s) st

/-! ## Collector (`collect_commands`, main.rs lines 631-674)

The enumeration of the cache directory is modelled as the list of
successfully parsed records in enumeration order.  `sort_by(|a, b|
a.file.cmp(&b.file))` is a stable sort under byte-wise string comparison;
byte-wise UTF-8 order equals code-point order, so `cmpCharList` compares
`Char` values lexicographically. -/

/-- Lexicographic comparison of character lists by code point, modelling
Rust `str::cmp` (byte-wise UTF-8 order equals code-point order). -/
def cmpCharList : List Char → List Char → Ordering
  | [], [] => Ordering.eq
  | [], _ :: _ => Ordering.lt
  | _ :: _, [] => Ordering.gt
  | a :: as1, b :: bs1 =>
    if a < b then Ordering.lt
    else if b < a then Ordering.gt
    else cmpCharList as1 bs1

/-- The comparator `a.file.cmp(&b.file)` is not `Greater`, the ordering
relation under which the stable sort arranges records. -/
def fileLe (a b : CompileCommand) : Prop :=
  cmpCharList a.file.data b.file.data ≠ Ordering.gt

instance : DecidableRel fileLe := fun a b => by
  unfold fileLe; infer_instance

/-- Embedding of the sort-and-aggregate step of `collect_commands`: the
parsed records, stably sorted by source-file path. -/
def collect_commands (records : List CompileCommand) : List CompileCommand :=
  List.insertionSort fileLe records

/-! ## Concrete inputs used by the theorems -/

/-- Byte list of an ASCII string, for building concrete file contents. -/
def asciiBytes (s : String) : List Nat := s.data.map Char.toNat

/-- File system for the response-expansion example of the spec: one
response file `resp.rsp` in `C:\proj` holding two lines. -/
def fsExample : String → Option (List Nat) := fun p =>
  if p = "C:\\proj\\resp.rsp" then some (asciiBytes "/I \"C:\\inc\"\n/DX=1") else none

/-- File system for the replacement-order counterexample: two response
files `a` and `ab` in `C:\w`, holding `X` and `Y`. -/
def fsOrder : String → Option (List Nat) := fun p =>
  if p = "C:\\w\\a" then some [88] else if p = "C:\\w\\ab" then some [89] else none

/-! ## Theorems -/

/-- Claim C1, counterexample: the order in which the individual
replacements are performed does affect the final expanded command string.
The original command `cl @a @ab` contains exactly the tokens `a` and `ab`;
expanding in match order differs from expanding in the swapped order,
because replacing `@a` first also rewrites the prefix of the still-pending
`@ab` occurrence. -/
theorem expand_order_counterexample :
    findTokens "cl @a @ab" = ["a", "ab"] ∧
    (expandTokens fsOrder "C:\\w" ["a", "ab"] "cl @a @ab").1 ≠
      (expandTokens fsOrder "C:\\w" ["ab", "a"] "cl @a @ab").1 := by
  decide

/-- Claim C1, amended: each response-file token is expanded by an exact
substring replacement (of every occurrence) of the original token text,
applied sequentially in the order the tokens were found in the original
command line; because each replacement rewrites the progressively expanded
string, a different replacement order can produce a different result when
one token's text is a prefix of another's.  On the counterexample command
the code's match order yields `cl X Xb` (the `@a` replacement also
destroys the `@ab` occurrence), while the swapped order yields `cl X Y`. -/
theorem expand_order_dependent :
    expand_response_files fsOrder "cl @a @ab" "C:\\w" = ("cl X Xb", ["X", "Y"]) ∧
    (expandTokens fsOrder "C:\\w" ["ab", "a"] "cl @a @ab").1 = "cl X Y" := by
  decide

/-- Claim C3, counterexample: for the glob pattern `a+.exe`, built only
from literal characters (no `*` or `?`), the spec-side anchored
case-insensitive exact matching rejects the name `aaa.exe`, but the
constructed predicate accepts it and rejects the literal name `a+.exe`
itself: the construction escapes only `.`, so the literal `+` keeps its
regex meaning. -/
theorem pattern_literal_counterexample :
    specGlobMatches "a+.exe" "aaa.exe" = false ∧
    specGlobMatches "a+.exe" "a+.exe" = true ∧
    patternMatches "a+.exe" "aaa.exe" = some true ∧
    patternMatches "a+.exe" "a+.exe" = some false := by
  decide

/-- Claim C3, amended: construction escapes only the dot among literal
characters, maps `*` to zero-or-more-of-any and `?` to any-single
character, and anchors a case-insensitive full match; literal characters
that are regex metacharacters (such as `+`) keep their regex meaning, so
exact matching is only guaranteed for patterns avoiding them.  The
documented examples hold: `cl.exe` matches `CL.EXE` and `cl.exe` and not
`clang.exe`; `cl*.exe` matches `cl1.exe` and `cl.exe`. -/
theorem pattern_examples :
    buildRegexSource "cl.exe" = "cl\\.exe" ∧
    buildRegexSource "cl*.exe" = "cl.*\\.exe" ∧
    patternMatches "cl.exe" "CL.EXE" = some true ∧
    patternMatches "cl.exe" "cl.exe" = some true ∧
    patternMatches "cl.exe" "clang.exe" = some false ∧
    patternMatches "cl*.exe" "cl1.exe" = some true ∧
    patternMatches "cl*.exe" "cl.exe" = some true := by
  decide

/-- Claim C5: expanding `cl.exe @resp.rsp /Fo out.obj` with `resp.rsp`
holding the two lines `/I "C:\inc"` and `/DX=1` yields
`cl.exe /I "C:\inc" /DX=1 /Fo out.obj` (lines trimmed, blank lines
dropped, surviving lines joined with single spaces, the result substituted
for the token), and the original two-line decoded content is archived
verbatim. -/
theorem expand_example :
    expand_response_files fsExample "cl.exe @resp.rsp /Fo out.obj" "C:\\proj" =
      ("cl.exe /I \"C:\\inc\" /DX=1 /Fo out.obj", ["/I \"C:\\inc\"\n/DX=1"]) := by
  decide

/-- Claim C7: the response-file byte decoding follows exactly the ordered
fallback — strict UTF-8 when the bytes are valid UTF-8; else UTF-16LE
dropping the byte-order mark when one is present; else UTF-16LE when the
byte length is even; else lossy UTF-8. -/
theorem decode_fallback_order (bytes : List Nat) :
    (∀ s, utf8Decode bytes = some s → decodeResponseBytes bytes = s) ∧
    (utf8Decode bytes = none → hasUtf16LEBom bytes = true →
      decodeResponseBytes bytes = ⟨utf16Lossy (toU16LE (bytes.drop 2))⟩) ∧
    (utf8Decode bytes = none → hasUtf16LEBom bytes = false → bytes.length % 2 = 0 →
      decodeResponseBytes bytes = ⟨utf16Lossy (toU16LE bytes)⟩) ∧
    (utf8Decode bytes = none → hasUtf16LEBom bytes = false → bytes.length % 2 ≠ 0 →
      decodeResponseBytes bytes = utf8Lossy bytes) := by
  unfold decodeResponseBytes
  refine ⟨?_, ?_, ?_, ?_⟩
  · intro s hs
    rw [hs]
  · intro hn hb
    rw [hn, hb]
    simp
  · intro hn hb he
    rw [hn, hb, he]
    simp
  · intro hn hb ho
    rw [hn, hb]
    simp [ho]

/-- Claim C7, witness: the bytes `FF FE 41 00` are not valid UTF-8, carry
the UTF-16LE byte-order mark, and decode under the second branch to
`"A"`. -/
theorem decode_fallback_order_witness :
    utf8Decode [255, 254, 65, 0] = none ∧
    decodeResponseBytes [255, 254, 65, 0] = "A" := by
  refine ⟨by decide, ?_⟩
  have h := (decode_fallback_order [255, 254, 65, 0]).2.1 (by decide) (by decide)
  rw [h]
  decide

/-- Helper: the per-process step does not depend on the callback, whose
result the source computes and discards. -/
theorem scanProc_cb_eq (mp : String → Bool) (cb cb' : ProcObs → Except String Unit)
    (st : ScanState) (p : ProcObs) : scanProc mp cb st p = scanProc mp cb' st p := rfl

/-- Helper: the snapshot walk does not depend on the callback. -/
theorem scanPhase_cb_eq (mp : String → Bool) (cb cb' : ProcObs → Except String Unit)
    (procs : List ProcObs) (st : ScanState) :
    scanPhase mp cb procs st = scanPhase mp cb' procs st := by
  induction procs generalizing st with
  | nil => rfl
  | cons p ps ih =>
    show scanPhase mp cb ps (scanProc mp cb st p) = scanPhase mp cb' ps (scanProc mp cb' st p)
    rw [scanProc_cb_eq mp cb cb' st p]
    exact ih _

/-- Claim C2: the loop's treatment of failures.  (1) The loop state is
independent of the per-process capture callback, hence callback failures
(resolution, expansion, extraction, record writing) never influence or
halt the loop.  (2) Whenever every tick's snapshot succeeds, the loop
never returns a fatal error, whatever the callback does.  (3) However a
failed process-snapshot creation, which the claim also covers, is
propagated as a fatal error out of the loop — the concrete run with one
failed snapshot returns the fatal error rather than continuing. -/
theorem monitor_isolation :
    (∀ (mp : String → Bool) (cb cb' : ProcObs → Except String Unit) ticks st,
      runMonitor mp cb ticks st = runMonitor mp cb' ticks st) ∧
    (∀ (mp : String → Bool) (cb : ProcObs → Except String Unit) ticks st,
      (∀ t ∈ ticks, t ≠ none) → ∃ st1, runMonitor mp cb ticks st = Except.ok st1) ∧
    runMonitor (fun _ => false) (fun _ => Except.ok ()) [none] ⟨[], []⟩ =
      Except.error "Failed to create process snapshot" := by
  refine ⟨?_, ?_, rfl⟩
  · intro mp cb cb' ticks
    induction ticks with
    | nil => intro st; rfl
    | cons t ts ih =>
      intro st
      cases t with
      | none => rfl
      | some procs =>
        show runMonitor mp cb ts (housekeep (scanPhase mp cb procs st)) =
          runMonitor mp cb' ts (housekeep (scanPhase mp cb' procs st))
        rw [scanPhase_cb_eq mp cb cb' procs st]
        exact ih _
  · intro mp cb ticks
    induction ticks with
    | nil => exact fun st _ => ⟨st, rfl⟩
    | cons t ts ih =>
      intro st h
      cases t with
      | none => exact absurd rfl (h none (List.mem_cons_self _ _))
      | some procs =>
        exact ih _ (fun u hu => h u (List.mem_cons_of_mem _ hu))

/-- Claim C2, witness: a two-tick run with successful snapshots returns
without a fatal error, and swapping an always-failing callback for an
always-succeeding one leaves the loop state unchanged. -/
theorem monitor_isolation_witness :
    (∃ st1, runMonitor (fun n => n == "cl.exe") (fun _ => Except.error "io")
      [some [⟨1, "cl.exe", "c", "C:\\x"⟩], some []] ⟨[], []⟩ = Except.ok st1) ∧
    runMonitor (fun n => n == "cl.exe") (fun _ => Except.error "io")
        [some [⟨1, "cl.exe", "c", "C:\\x"⟩]] ⟨[], []⟩ =
      runMonitor (fun n => n == "cl.exe") (fun _ => Except.ok ())
        [some [⟨1, "cl.exe", "c", "C:\\x"⟩]] ⟨[], []⟩ := by
  constructor
  · exact
      (monitor_isolation.2.1 (fun n => n == "cl.exe") (fun _ => Except.error "io")
        [some [⟨1, "cl.exe", "c", "C:\\x"⟩], some []] ⟨[], []⟩ (by decide))
  · exact
      monitor_isolation.1 (fun n => n == "cl.exe") (fun _ => Except.error "io")
        (fun _ => Except.ok ()) [some [⟨1, "cl.exe", "c", "C:\\x"⟩]] ⟨[], []⟩

/-- Helper: one per-process step only ever adds to the known set. -/
theorem scanProc_known_mono (mp : String → Bool) (cb : ProcObs → Except String Unit)
    (st : ScanState) (p : ProcObs) : st.known ⊆ (scanProc mp cb st p).known := by
  unfold scanProc
  split
  · exact fun a ha => List.mem_append_left _ ha
  · exact fun a ha => ha

/-- Helper: the snapshot walk only ever adds to the known set. -/
theorem scanPhase_known_mono (mp : String → Bool) (cb : ProcObs → Except String Unit)
    (procs : List ProcObs) (st : ScanState) : st.known ⊆ (scanPhase mp cb procs st).known := by
  induction procs generalizing st with
  | nil => exact fun a ha => ha
  | cons p ps ih =>
    exact fun a ha =>
      ih (scanProc mp cb st p) (scanProc_known_mono mp cb st p ha)

/-- Helper: the per-process step preserves the dedup invariant for a fixed
`(pid, name)` pair: the pair was captured at most once so far, and if it
was captured then its key is in the known set. -/
theorem scanProc_dedup_inv (mp : String → Bool) (cb : ProcObs → Except String Unit)
    (st : ScanState) (p : ProcObs) (pid : Nat) (name : String)
    (h1 : List.count (pid, name) st.captures ≤ 1)
    (h2 : 1 ≤ List.count (pid, name) st.captures → keyOf pid name ∈ st.known) :
    List.count (pid, name) (scanProc mp cb st p).captures ≤ 1 ∧
      (1 ≤ List.count (pid, name) (scanProc mp cb st p).captures →
        keyOf pid name ∈ (scanProc mp cb st p).known) := by
  unfold scanProc
  split
  · next hc =>
    by_cases hpq : (p.pid, p.name) = (pid, name)
    · have hkey : keyOf p.pid p.name = keyOf pid name := by
        rw [Prod.mk.injEq] at hpq
        rw [hpq.1, hpq.2]
      have hzero : List.count (pid, name) st.captures = 0 := by
        by_contra hne
        exact hc.2 (hkey ▸ h2 (by omega))
      constructor
      · simp [List.count_append, hzero, hpq]
      · intro _
        exact List.mem_append_right _ (hkey ▸ List.mem_singleton_self _)
    · have hz : List.count (pid, name) [(p.pid, p.name)] = 0 := by
        rw [List.count_eq_zero]
        intro hmem
        rw [List.mem_singleton] at hmem
        exact hpq hmem.symm
      constructor
      · rw [List.count_append, hz]
        omega
      · intro hcnt
        rw [List.count_append, hz] at hcnt
        exact List.mem_append_left _ (h2 (by omega))
  · exact ⟨h1, h2⟩

/-- Helper: the snapshot walk preserves the dedup invariant. -/
theorem scanPhase_dedup_inv (mp : String → Bool) (cb : ProcObs → Except String Unit)
    (procs : List ProcObs) (st : ScanState) (pid : Nat) (name : String)
    (h1 : List.count (pid, name) st.captures ≤ 1)
    (h2 : 1 ≤ List.count (pid, name) st.captures → keyOf pid name ∈ st.known) :
    List.count (pid, name) (scanPhase mp cb procs st).captures ≤ 1 ∧
      (1 ≤ List.count (pid, name) (scanPhase mp cb procs st).captures →
        keyOf pid name ∈ (scanPhase mp cb procs st).known) := by
  induction procs generalizing st with
  | nil => exact ⟨h1, h2⟩
  | cons p ps ih =>
    have hstep := scanProc_dedup_inv mp cb st p pid name h1 h2
    exact ih (scanProc mp cb st p) hstep.1 hstep.2

/-- Helper: a window of snapshot walks preserves the dedup invariant. -/
theorem runWindow_dedup_inv (mp : String → Bool) (cb : ProcObs → Except String Unit)
    (ticks : List (List ProcObs)) (st : ScanState) (pid : Nat) (name : String)
    (h1 : List.count (pid, name) st.captures ≤ 1)
    (h2 : 1 ≤ List.count (pid, name) st.captures → keyOf pid name ∈ st.known) :
    List.count (pid, name) (runWindow mp cb ticks st).captures ≤ 1 ∧
      (1 ≤ List.count (pid, name) (runWindow mp cb ticks st).captures →
        keyOf pid name ∈ (runWindow mp cb ticks st).known) := by
  induction ticks generalizing st with
  | nil => exact ⟨h1, h2⟩
  | cons procs ts ih =>
    have hstep := scanPhase_dedup_inv mp cb procs st pid name h1 h2
    exact ih (scanPhase mp cb procs st) hstep.1 hstep.2

/-- Claim C8: within one tracking window (ticks between full resets,
where the housekeeping branch is the identity), a `(pid, name)` pair
observed in any number of consecutive ticks produces at most one capture
attempt; the known set only grows during the walk; housekeeping is the
identity while the set holds at most 10000 entries, and clears it
entirely once it exceeds 10000 entries. -/
theorem scan_dedup :
    (∀ (mp : String → Bool) (cb : ProcObs → Except String Unit) ticks pid name,
      List.count (pid, name) (runWindow mp cb ticks ⟨[], []⟩).captures ≤ 1) ∧
    (∀ (mp : String → Bool) (cb : ProcObs → Except String Unit) procs st,
      st.known ⊆ (scanPhase mp cb procs st).known) ∧
    (∀ (mp : String → Bool) (cb : ProcObs → Except String Unit) procs st,
      (scanPhase mp cb procs st).known.length ≤ 10000 →
        housekeep (scanPhase mp cb procs st) = scanPhase mp cb procs st) ∧
    (∀ st : ScanState, st.known.length > 10000 → (housekeep st).known = []) := by
  refine ⟨?_, scanPhase_known_mono, ?_, ?_⟩
  · intro mp cb ticks pid name
    exact (runWindow_dedup_inv mp cb ticks ⟨[], []⟩ pid name (by simp) (by simp)).1
  · intro mp cb procs st h
    unfold housekeep
    rw [if_neg (by omega)]
  · intro st h
    unfold housekeep
    rw [if_pos h]

/-- Claim C8, witness: the pair `(1, "cl.exe")` seen in two consecutive
ticks is captured at most once, and housekeeping leaves a one-entry known
set untouched. -/
theorem scan_dedup_witness :
    List.count (1, "cl.exe")
        (runWindow (fun n => n == "cl.exe") (fun _ => Except.ok ())
          [[⟨1, "cl.exe", "c", "C:\\x"⟩], [⟨1, "cl.exe", "c", "C:\\x"⟩]] ⟨[], []⟩).captures ≤ 1 ∧
    housekeep (scanPhase (fun n => n == "cl.exe") (fun _ => Except.ok ())
        [⟨1, "cl.exe", "c", "C:\\x"⟩] ⟨[], []⟩) =
      scanPhase (fun n => n == "cl.exe") (fun _ => Except.ok ())
        [⟨1, "cl.exe", "c", "C:\\x"⟩] ⟨[], []⟩ :=
  ⟨scan_dedup.1 _ _ _ 1 "cl.exe", scan_dedup.2.2.1 _ _ _ _ (by decide)⟩

/-- Helper: swapping the arguments of the lexicographic comparison swaps
the resulting ordering. -/
theorem cmpCharList_swap (a : List Char) : ∀ b, (cmpCharList a b).swap = cmpCharList b a := by
  induction a with
  | nil => intro b; cases b <;> rfl
  | cons x xs ih =>
    intro b
    cases b with
    | nil => rfl
    | cons y ys =>
      unfold cmpCharList
      rcases lt_trichotomy x y with h | h | h
      · rw [if_pos h, if_neg (lt_asymm h), if_pos h]
        rfl
      · rw [h, if_neg (lt_irrefl y), if_neg (lt_irrefl y), if_neg (lt_irrefl y),
          if_neg (lt_irrefl y)]
        exact ih ys
      · rw [if_neg (lt_asymm h), if_pos h, if_pos h]
        rfl

/-- Helper: the lexicographic comparison answers `eq` exactly on equal
lists. -/
theorem cmpCharList_eq_iff (a : List Char) : ∀ b, cmpCharList a b = Ordering.eq ↔ a = b := by
  induction a with
  | nil =>
    intro b
    cases b with
    | nil => simp [cmpCharList]
    | cons y ys => simp [cmpCharList]
  | cons x xs ih =>
    intro b
    cases b with
    | nil => simp [cmpCharList]
    | cons y ys =>
      unfold cmpCharList
      rcases lt_trichotomy x y with h | h | h
      · rw [if_pos h]
        simp [ne_of_lt h]
      · rw [h, if_neg (lt_irrefl y), if_neg (lt_irrefl y)]
        simp [ih ys]
      · rw [if_neg (lt_asymm h), if_pos h]
        simp [(ne_of_lt h).symm]

/-- Helper: transitivity of "not greater" for the lexicographic
comparison. -/
theorem cmpCharList_le_trans (a : List Char) :
    ∀ b c, cmpCharList a b ≠ Ordering.gt → cmpCharList b c ≠ Ordering.gt →
      cmpCharList a c ≠ Ordering.gt := by
  induction a with
  | nil =>
    intro b c _ _
    cases c <;> simp [cmpCharList]
  | cons x xs ih =>
    intro b c h1 h2
    cases b with
    | nil => exact absurd rfl h1
    | cons y ys =>
      cases c with
      | nil => exact absurd rfl h2
      | cons z zs =>
        unfold cmpCharList at h1 h2 ⊢
        rcases lt_trichotomy x y with hxy | hxy | hxy
        · rcases lt_trichotomy y z with hyz | hyz | hyz
          · rw [if_pos (lt_trans hxy hyz)]
            simp
          · rw [← hyz, if_pos hxy]
            simp
          · rw [if_neg (lt_asymm hyz), if_pos hyz] at h2
            exact absurd rfl h2
        · rcases lt_trichotomy y z with hyz | hyz | hyz
          · rw [hxy, if_pos hyz]
            simp
          · rw [hxy, ← hyz, if_neg (lt_irrefl y), if_neg (lt_irrefl y)]
            rw [hxy, if_neg (lt_irrefl y), if_neg (lt_irrefl y)] at h1
            rw [← hyz, if_neg (lt_irrefl y), if_neg (lt_irrefl y)] at h2
            exact ih ys zs h1 h2
          · rw [if_neg (lt_asymm hyz), if_pos hyz] at h2
            exact absurd rfl h2
        · rw [if_neg (lt_asymm hxy), if_pos hxy] at h1
          exact absurd rfl h1

/-- Claim C9, counterexample: with two records sharing the source-file
path `a.cpp` but carrying different commands, the collector's stable sort
preserves the enumeration order, so two different file-system enumeration
orders produce two different outputs. -/
theorem collect_order_counterexample :
    collect_commands [⟨"d", "c1", "a.cpp"⟩, ⟨"d", "c2", "a.cpp"⟩] ≠
      collect_commands [⟨"d", "c2", "a.cpp"⟩, ⟨"d", "c1", "a.cpp"⟩] := by
  decide

/-- Claim C9, amended: collection produces the list stably sorted by
source-file path; whenever no two records share a source-file path the
output is identical regardless of the file-system enumeration order in
which the records are read — in particular records for `b.cpp`, `a.cpp`,
`c.cpp` always come out ordered `a.cpp`, `b.cpp`, `c.cpp`.  Records that
share a file path keep their enumeration order relative to each other. -/
theorem collect_deterministic :
    (∀ l1 l2 : List CompileCommand, l1.Perm l2 →
      l1.Pairwise (fun a b => a.file ≠ b.file) →
      collect_commands l1 = collect_commands l2) ∧
    collect_commands [⟨"d", "cb", "b.cpp"⟩, ⟨"d", "ca", "a.cpp"⟩, ⟨"d", "cc", "c.cpp"⟩] =
      [⟨"d", "ca", "a.cpp"⟩, ⟨"d", "cb", "b.cpp"⟩, ⟨"d", "cc", "c.cpp"⟩] := by
  constructor
  · intro l1 l2 hperm hnodup
    haveI : IsTotal CompileCommand fileLe := by
      constructor
      intro a b
      unfold fileLe
      rcases h : cmpCharList a.file.data b.file.data with _ | _ | _
      · exact Or.inl (by simp [h])
      · exact Or.inl (by simp [h])
      · refine Or.inr ?_
        have hs := cmpCharList_swap a.file.data b.file.data
        rw [h] at hs
        rw [← hs]
        simp [Ordering.swap]
    haveI : IsTrans CompileCommand fileLe := by
      constructor
      intro a b c h1 h2
      exact cmpCharList_le_trans a.file.data b.file.data c.file.data h1 h2
    have hs1 : List.Sorted fileLe (collect_commands l1) :=
      List.sorted_insertionSort fileLe l1
    have hs2 : List.Sorted fileLe (collect_commands l2) :=
      List.sorted_insertionSort fileLe l2
    have hp1 : (collect_commands l1).Perm l1 := List.perm_insertionSort fileLe l1
    have hp2 : (collect_commands l2).Perm l2 := List.perm_insertionSort fileLe l2
    have hsymm : ∀ {x y : CompileCommand}, x.file ≠ y.file → y.file ≠ x.file :=
      fun h => Ne.symm h
    have hnodup1 : (collect_commands l1).Pairwise (fun a b => a.file ≠ b.file) :=
      (List.Perm.pairwise_iff hsymm hp1).2 hnodup
    have hnodup2 : (collect_commands l2).Pairwise (fun a b => a.file ≠ b.file) :=
      (List.Perm.pairwise_iff hsymm hp2).2 ((List.Perm.pairwise_iff hsymm hperm).1 hnodup)
    haveI : IsAntisymm CompileCommand
        (fun a b => cmpCharList a.file.data b.file.data = Ordering.lt) := by
      constructor
      intro a b h1 h2
      have hs := cmpCharList_swap a.file.data b.file.data
      rw [h1, h2] at hs
      exact absurd hs (by decide)
    have hstrict : ∀ {l : List CompileCommand},
        List.Sorted fileLe l → l.Pairwise (fun a b => a.file ≠ b.file) →
        List.Sorted (fun a b => cmpCharList a.file.data b.file.data = Ordering.lt) l := by
      intro l hle hne
      refine List.Pairwise.imp ?_ (List.Pairwise.and hle hne)
      intro a b hab
      rcases h : cmpCharList a.file.data b.file.data with _ | _ | _
      · rfl
      · exact absurd (String.ext ((cmpCharList_eq_iff a.file.data b.file.data).1 h))
          hab.2
      · exact absurd h hab.1
    exact List.eq_of_perm_of_sorted (hp1.trans (hperm.trans hp2.symm))
      (hstrict hs1 hnodup1) (hstrict hs2 hnodup2)
  · decide

/-- Claim C9, witness: two enumeration orders of the same two records with
distinct file paths collect to the same output. -/
theorem collect_deterministic_witness :
    collect_commands [⟨"d", "cb", "b.cpp"⟩, ⟨"d", "ca", "a.cpp"⟩] =
      collect_commands [⟨"d", "ca", "a.cpp"⟩, ⟨"d", "cb", "b.cpp"⟩] :=
  collect_deterministic.1 _ _ (by decide) (by decide)

/-- Helper: one tokenizer step never stores a double quote, and leaves a
quote-free state quote-free. -/
theorem argStep_no_quote (st : List (List Char) × List Char × Bool) (c : Char)
    (h1 : ∀ t ∈ st.1, '"' ∉ t) (h2 : '"' ∉ st.2.1) :
    (∀ t ∈ (argStep st c).1, '"' ∉ t) ∧ '"' ∉ (argStep st c).2.1 := by
  unfold argStep
  split
  · exact ⟨h1, h2⟩
  · split
    · split
      · exact ⟨h1, h2⟩
      · refine ⟨?_, by simp⟩
        intro t ht
        rcases List.mem_append.1 ht with h | h
        · exact h1 t h
        · rw [List.mem_singleton] at h
          exact h ▸ h2
    · next hq _ =>
      refine ⟨h1, ?_⟩
      intro hmem
      rcases List.mem_append.1 hmem with h | h
      · exact h2 h
      · rw [List.mem_singleton] at h
        exact hq h.symm

/-- Helper: the tokenizer fold preserves quote-freeness of all stored
arguments. -/
theorem foldl_argStep_no_quote (cs : List Char) :
    ∀ st : List (List Char) × List Char × Bool,
      (∀ t ∈ st.1, '"' ∉ t) → '"' ∉ st.2.1 →
      (∀ t ∈ (cs.foldl argStep st).1, '"' ∉ t) ∧ '"' ∉ (cs.foldl argStep st).2.1 := by
  induction cs with
  | nil => exact fun st h1 h2 => ⟨h1, h2⟩
  | cons c rest ih =>
    intro st h1 h2
    have hstep := argStep_no_quote st c h1 h2
    exact ih (argStep st c) hstep.1 hstep.2

/-- Helper: the in-quotes flag after one step flips exactly on a quote
character. -/
theorem argStep_inq (st : List (List Char) × List Char × Bool) (c : Char) :
    (argStep st c).2.2 = if c = '"' then !st.2.2 else st.2.2 := by
  unfold argStep
  split
  · rfl
  · split
    · split <;> rfl
    · rfl

/-- Helper: the in-quotes flag after the fold is the initial flag flipped
by the parity of the quote count. -/
theorem foldl_argStep_inq (cs : List Char) :
    ∀ st : List (List Char) × List Char × Bool,
      (cs.foldl argStep st).2.2 =
        if cs.count '"' % 2 = 0 then st.2.2 else !st.2.2 := by
  induction cs with
  | nil => intro st; rfl
  | cons c rest ih =>
    intro st
    rw [List.foldl_cons, ih (argStep st c), argStep_inq st c, List.count_cons]
    by_cases hc : c = '"'
    · have h1 : (c == '"') = true := by simp [hc]
      rw [h1, if_pos rfl, if_pos hc]
      by_cases hp : rest.count '"' % 2 = 0
      · rw [if_pos hp, if_neg (by omega)]
      · rw [if_neg hp, if_pos (by omega), Bool.not_not]
    · have h1 : (c == '"') = false := by simp [hc]
      have h2 : (if false = true then 1 else 0) = 0 := rfl
      rw [h1, h2, Nat.add_zero, if_neg hc]

/-- Helper: inside quotes, a quote-free tail is appended verbatim to the
current argument — spaces included — and the fold stays in quote mode. -/
theorem foldl_argStep_in_quotes (cs : List Char) (h : '"' ∉ cs) :
    ∀ (args : List (List Char)) (cur : List Char),
      cs.foldl argStep (args, cur, true) = (args, cur ++ cs, true) := by
  induction cs with
  | nil => intro args cur; simp
  | cons c rest ih =>
    intro args cur
    have hc : c ≠ '"' := fun he => h (he ▸ List.mem_cons_self c rest)
    have hstep : argStep (args, cur, true) c = (args, cur ++ [c], true) := by
      simp [argStep, hc]
    rw [List.foldl_cons, hstep, ih (fun hm => h (List.mem_cons_of_mem c hm)) args (cur ++ [c])]
    simp

/-- Claim C10: the tokenizer never emits a double-quote character in any
token (quotes only toggle the in-quotes mode); and for a command line with
an unmatched quote — an even-quoted text, the quote, then a quote-free
remainder — the entire remainder, spaces included, accumulates into the
final token. -/
theorem tokenizer_quote_behaviour :
    (∀ s t : String, t ∈ parse_arguments s → '"' ∉ t.data) ∧
    (∀ pre suf : String, pre.data.count '"' % 2 = 0 → suf.data.count '"' = 0 →
      parse_arguments (pre ++ "\"" ++ suf) =
        ((parseState pre).1 ++
          (if (parseState pre).2.1 ++ suf.data = [] then []
           else [(parseState pre).2.1 ++ suf.data])).map (fun l => (⟨l⟩ : String))) := by
  constructor
  · intro s t ht
    unfold parse_arguments at ht
    rcases List.mem_map.1 ht with ⟨l, hl, hlt⟩
    have hinv := foldl_argStep_no_quote s.data ([], [], false) (by simp) (by simp)
    subst hlt
    intro hq
    rcases (by
      by_cases he : (parseState s).2.1 = []
      · rw [if_pos he] at hl
        exact Or.inl hl
      · rw [if_neg he] at hl
        rcases List.mem_append.1 hl with h | h
        · exact Or.inl h
        · exact Or.inr (List.mem_singleton.1 h) :
        l ∈ (parseState s).1 ∨ l = (parseState s).2.1) with hmem | hmem
    · exact hinv.1 l hmem hq
    · exact hinv.2 (hmem ▸ hq)
  · intro pre suf hpre hsuf
    have hdata : (pre ++ "\"" ++ suf).data = (pre.data ++ ['"']) ++ suf.data := rfl
    have hnq : '"' ∉ suf.data := List.count_eq_zero.1 hsuf
    have hinq : (parseState pre).2.2 = false := by
      rw [show parseState pre = pre.data.foldl argStep ([], [], false) from rfl,
        foldl_argStep_inq pre.data ([], [], false), if_pos hpre]
    have hquote : argStep (parseState pre) '"' =
        ((parseState pre).1, (parseState pre).2.1, true) := by
      unfold argStep
      rw [if_pos rfl, hinq]
      rfl
    have hfold : parseState (pre ++ "\"" ++ suf) =
        ((parseState pre).1, (parseState pre).2.1 ++ suf.data, true) := by
      show (pre ++ "\"" ++ suf).data.foldl argStep ([], [], false) = _
      rw [hdata, List.foldl_append, List.foldl_append]
      show suf.data.foldl argStep (['"'].foldl argStep (parseState pre)) = _
      rw [show ['"'].foldl argStep (parseState pre) = argStep (parseState pre) '"' from rfl,
        hquote, foldl_argStep_in_quotes suf.data hnq]
    unfold parse_arguments
    rw [hfold]
    dsimp only
    by_cases he : (parseState pre).2.1 ++ suf.data = []
    · rw [if_pos he, if_pos he]
      simp
    · rw [if_neg he, if_neg he]

/-- Claim C10, witness: `cl "a b` (unmatched quote) tokenizes to `cl` and
the single final token `a b`, and the token `ab` of `ab` holds no
quote. -/
theorem tokenizer_quote_behaviour_witness :
    parse_arguments ("cl " ++ "\"" ++ "a b") = ["cl", "a b"] ∧
    '"' ∉ ("ab" : String).data := by
  constructor
  · rw [tokenizer_quote_behaviour.2 "cl " "a b" (by decide) (by decide)]
    decide
  · exact tokenizer_quote_behaviour.1 "ab" "ab" (by decide)

/-- Helper: `Char.ofNat` of a valid code point round-trips through
`Char.toNat`. -/
theorem charOfNat_toNat (n : Nat) (h : n.isValidChar) : (Char.ofNat n).toNat = n := by
  simp only [Char.ofNat, dif_pos h]
  rfl

/-- Helper: the code point of `Char.toLower` — shifted by 32 on ASCII
uppercase letters, unchanged otherwise. -/
theorem toLower_toNat (c : Char) :
    (Char.toLower c).toNat = if c.toNat ≥ 65 ∧ c.toNat ≤ 90 then c.toNat + 32 else c.toNat := by
  by_cases h : c.toNat ≥ 65 ∧ c.toNat ≤ 90
  · have hv : (c.toNat + 32).isValidChar := Or.inl (by omega)
    simp [Char.toLower, h, charOfNat_toNat _ hv]
  · simp [Char.toLower, h]

/-- Helper: lowercasing never produces the uppercase letter `C`, so the
`".C"` entry of the source's extension list can never fire against the
lowercased token. -/
theorem toLower_ne_C (c : Char) : Char.toLower c ≠ 'C' := by
  intro he
  have h := congrArg Char.toNat he
  rw [toLower_toNat] at h
  have h67 : ('C').toNat = 67 := rfl
  rw [h67] at h
  split at h
  · omega
  · next hcond =>
    rw [Decidable.not_and_iff_or_not] at hcond
    rcases hcond with hl | hl <;> omega

/-- Helper: `dropWhile` is the identity when no element satisfies the
predicate. -/
theorem dropWhile_eq_self_of {p : Char → Bool} (l : List Char)
    (h : ∀ c ∈ l, p c = false) : l.dropWhile p = l := by
  cases l with
  | nil => rfl
  | cons c rest =>
    rw [List.dropWhile_cons, h c (List.mem_cons_self c rest)]
    simp

/-- Helper: `trim_matches('"')` is the identity on a quote-free token (and
every token the tokenizer produces is quote-free). -/
theorem trimQuotes_no_quote (l : List Char) (h : '"' ∉ l) : trimQuotes l = l := by
  unfold trimQuotes
  have h1 : l.dropWhile (fun c => c = '"') = l :=
    dropWhile_eq_self_of l (fun c hc => by
      simp only [decide_eq_false_iff_not]
      exact fun he => h (he ▸ hc))
  rw [h1]
  have h2 : l.reverse.dropWhile (fun c => c = '"') = l.reverse :=
    dropWhile_eq_self_of l.reverse (fun c hc => by
      simp only [decide_eq_false_iff_not]
      exact fun he => h (he ▸ List.mem_reverse.1 hc))
  rw [h2, List.reverse_reverse]

/-- Helper: `".C"` is never a suffix of a lowercased token. -/
theorem suffix_C_false (l : List Char) :
    (".C".data).isSuffixOf (l.map Char.toLower) = false := by
  rw [Bool.eq_false_iff]
  intro hsuf
  rcases (List.isSuffixOf_iff_suffix).1 hsuf with ⟨t, ht⟩
  have hmemC : 'C' ∈ l.map Char.toLower := by
    rw [← ht]
    exact List.mem_append_right t (by simp [String.data])
  rcases List.mem_map.1 hmemC with ⟨c, _, hc⟩
  exact toLower_ne_C c hc

/-- Helper: tokens produced by `parse_arguments` never contain a double
quote. -/
theorem parse_arguments_no_quote (s t : String) (ht : t ∈ parse_arguments s) :
    '"' ∉ t.data := by
  unfold parse_arguments at ht
  rcases List.mem_map.1 ht with ⟨l, hl, hlt⟩
  have hinv := foldl_argStep_no_quote s.data ([], [], false) (by simp) (by simp)
  subst hlt
  intro hq
  by_cases he : (parseState s).2.1 = []
  · rw [if_pos he] at hl
    exact hinv.1 l hl hq
  · rw [if_neg he] at hl
    rcases List.mem_append.1 hl with h | h
    · exact hinv.1 l h hq
    · exact hinv.2 (List.mem_singleton.1 h ▸ hq)

/-- Helper: the per-argument extraction step on a quote-free argument is
an append of the claim-side filter result. -/
theorem extractStep_spec (wd : String) (acc : List String) (arg : String)
    (h : '"' ∉ arg.data) :
    extractStep wd acc arg =
      acc ++ (if [".c".data, ".cpp".data, ".cc".data, ".cxx".data, ".c++".data].any
          (fun e => e.isSuffixOf (arg.data.map Char.toLower)) then
        [resolveMaybe wd arg] else []) := by
  have hlast := suffix_C_false arg.data
  simp only [extractStep, trimQuotes_no_quote arg.data h, sourceExtensions,
    List.any_cons, List.any_nil, hlast, Bool.or_false]
  split
  · rfl
  · simp

/-- Helper: the extraction fold equals the claim-side `filterMap` on
quote-free arguments. -/
theorem extract_fold_spec (wd : String) (args : List String) :
    ∀ acc : List String, (∀ a ∈ args, '"' ∉ a.data) →
      args.foldl (extractStep wd) acc =
        acc ++ args.filterMap (fun arg =>
          if [".c".data, ".cpp".data, ".cc".data, ".cxx".data, ".c++".data].any
              (fun e => e.isSuffixOf (arg.data.map Char.toLower)) then
            some (resolveMaybe wd arg)
          else none) := by
  induction args with
  | nil => intro acc _; simp
  | cons a args ih =>
    intro acc h
    rw [List.foldl_cons, extractStep_spec wd acc a (h a (List.mem_cons_self a args)),
      ih _ (fun x hx => h x (List.mem_cons_of_mem a hx)), List.filterMap_cons]
    by_cases hcond : ([".c".data, ".cpp".data, ".cc".data, ".cxx".data, ".c++".data].any
        (fun e => e.isSuffixOf (a.data.map Char.toLower))) = true
    · simp [hcond, List.append_assoc]
    · simp [hcond]

/-- Claim C6: the Source File Extractor returns exactly the quote-aware
tokens that end case-insensitively in one of `.c`, `.cpp`, `.cc`, `.cxx`,
`.c++` (the source's sixth entry `".C"` can never fire against the
lowercased token), each resolved against the working directory when
relative, in first-seen order with original case preserved; a command
line naming zero source files yields an empty result and no record is
persisted; and the concrete example resolves as documented. -/
theorem extract_exact :
    (∀ command wd, extract_all_source_files command wd = specExtractSourceFiles command wd) ∧
    (∀ command wd, extract_all_source_files command wd = [] →
      callbackRecords command wd = []) ∧
    extract_all_source_files "cl.exe /c main.cpp utils.CPP /Fo:out/" "C:\\proj" =
      ["C:\\proj\\main.cpp", "C:\\proj\\utils.CPP"] := by
  refine ⟨?_, ?_, by decide⟩
  · intro command wd
    unfold extract_all_source_files specExtractSourceFiles
    rw [extract_fold_spec wd (parse_arguments command) []
      (fun a ha => parse_arguments_no_quote command a ha)]
    rfl
  · intro command wd h
    unfold callbackRecords
    rw [h]
    rfl

/-- Claim C6, witness: a command naming zero source files extracts
nothing, so the callback persists no record. -/
theorem extract_exact_witness :
    extract_all_source_files "cl.exe /Fo:out/" "C:\\proj" = [] ∧
    callbackRecords "cl.exe /Fo:out/" "C:\\proj" = [] :=
  ⟨by decide, extract_exact.2.1 "cl.exe /Fo:out/" "C:\\proj" (by decide)⟩

/-- Helper: the fuel argument of the decimal printer is irrelevant once it
exceeds the number. -/
theorem decDigitsAux_eq (f1 : Nat) :
    ∀ f2 n : Nat, n < f1 → n < f2 → decDigitsAux f1 n = decDigitsAux f2 n := by
  induction f1 with
  | zero => intro f2 n h1 _; omega
  | succ f ih =>
    intro f2 n h1 h2
    cases f2 with
    | zero => omega
    | succ g =>
      show (if n < 10 then [Char.ofNat (48 + n)]
          else decDigitsAux f (n / 10) ++ [Char.ofNat (48 + n % 10)]) =
        (if n < 10 then [Char.ofNat (48 + n)]
          else decDigitsAux g (n / 10) ++ [Char.ofNat (48 + n % 10)])
      by_cases h : n < 10
      · rw [if_pos h, if_pos h]
      · rw [if_neg h, if_neg h]
        have hdiv : n / 10 < n := Nat.div_lt_self (by omega) (by omega)
        rw [ih g (n / 10) (by omega) (by omega)]

/-- Helper: the decimal printer produces a nonempty all-digit string that
parses back to the number. -/
theorem decDigits_spec (n : Nat) :
    decDigits n ≠ [] ∧ (∀ c ∈ decDigits n, isDigitChar c = true) ∧
      parseDigits (decDigits n) = n := by
  induction n using Nat.strong_induction_on with
  | _ n ih =>
    by_cases h : n < 10
    · have hd : decDigits n = [Char.ofNat (48 + n)] := by
        show (if n < 10 then [Char.ofNat (48 + n)]
            else decDigitsAux n (n / 10) ++ [Char.ofNat (48 + n % 10)]) = _
        rw [if_pos h]
      have hv : (48 + n).isValidChar := Or.inl (by omega)
      refine ⟨by simp [hd], ?_, ?_⟩
      · intro c hc
        rw [hd, List.mem_singleton] at hc
        subst hc
        simp only [isDigitChar, charOfNat_toNat _ hv]
        simp only [decide_eq_true_eq]
        omega
      · rw [hd]
        show (0 * 10 + ((Char.ofNat (48 + n)).toNat - 48)) = n
        rw [charOfNat_toNat _ hv]
        omega
    · have hdiv : n / 10 < n := Nat.div_lt_self (by omega) (by omega)
      have hv : (48 + n % 10).isValidChar := Or.inl (by have := Nat.mod_lt n (show 0 < 10 by omega); omega)
      have hd : decDigits n = decDigits (n / 10) ++ [Char.ofNat (48 + n % 10)] := by
        show (if n < 10 then [Char.ofNat (48 + n)]
            else decDigitsAux n (n / 10) ++ [Char.ofNat (48 + n % 10)]) = _
        rw [if_neg h, decDigitsAux_eq n (n / 10 + 1) (n / 10) (by omega) (by omega)]
        rfl
      rcases ih (n / 10) hdiv with ⟨hne, hdig, hparse⟩
      refine ⟨by simp [hd], ?_, ?_⟩
      · intro c hc
        rw [hd] at hc
        rcases List.mem_append.1 hc with hc | hc
        · exact hdig c hc
        · rw [List.mem_singleton] at hc
          subst hc
          simp only [isDigitChar, charOfNat_toNat _ hv]
          simp only [decide_eq_true_eq]
          have := Nat.mod_lt n (show 0 < 10 by omega)
          omega
      · rw [hd]
        unfold parseDigits
        rw [List.foldl_append]
        show (parseDigits (decDigits (n / 10))) * 10 + ((Char.ofNat (48 + n % 10)).toNat - 48) = n
        rw [hparse, charOfNat_toNat _ hv]
        have := Nat.div_add_mod n 10
        have := Nat.mod_lt n (show 0 < 10 by omega)
        omega

/-- Helper: leading zeros do not change the parsed value. -/
theorem parseDigits_replicate_zero (j : Nat) (ds : List Char) :
    parseDigits (List.replicate j '0' ++ ds) = parseDigits ds := by
  unfold parseDigits
  rw [List.foldl_append]
  have hz : List.foldl (fun a c => a * 10 + (c.toNat - 48)) 0 (List.replicate j '0') = 0 := by
    induction j with
    | zero => rfl
    | succ i ihj =>
      rw [List.replicate_succ, List.foldl_cons]
      show List.foldl (fun a c => a * 10 + (c.toNat - 48)) (0 * 10 + ('0'.toNat - 48))
        (List.replicate i '0') = 0
      have h0 : (0 * 10 + ('0'.toNat - 48)) = 0 := by decide
      rw [h0, ihj]
  rw [hz]

/-- Helper: the zero-padded counter string is nonempty, all digits, and
parses back to the counter value. -/
theorem pad6_spec (n : Nat) :
    pad6 n ≠ [] ∧ (∀ c ∈ pad6 n, isDigitChar c = true) ∧ parseDigits (pad6 n) = n := by
  rcases decDigits_spec n with ⟨hne, hdig, hparse⟩
  unfold pad6
  refine ⟨by simp [hne], ?_, ?_⟩
  · intro c hc
    rcases List.mem_append.1 hc with hc | hc
    · rw [List.eq_of_mem_replicate hc]
      decide
    · exact hdig c hc
  · rw [parseDigits_replicate_zero, hparse]

/-- Helper: `takeWhile` walks through an all-true block. -/
theorem takeWhile_append_all {p : Char → Bool} (l1 l2 : List Char)
    (h : ∀ c ∈ l1, p c = true) : (l1 ++ l2).takeWhile p = l1 ++ l2.takeWhile p := by
  induction l1 with
  | nil => rfl
  | cons c rest ih =>
    rw [List.cons_append, List.takeWhile_cons, h c (List.mem_cons_self c rest),
      ih (fun x hx => h x (List.mem_cons_of_mem c hx))]
    rfl

/-- Helper: `dropWhile` drops an all-true block. -/
theorem dropWhile_append_all {p : Char → Bool} (l1 l2 : List Char)
    (h : ∀ c ∈ l1, p c = true) : (l1 ++ l2).dropWhile p = l2.dropWhile p := by
  induction l1 with
  | nil => rfl
  | cons c rest ih =>
    rw [List.cons_append, List.dropWhile_cons, h c (List.mem_cons_self c rest)]
    simp only [if_true]
    exact ih (fun x hx => h x (List.mem_cons_of_mem c hx))

/-- Helper: the trailing digit run of `<front>_<digits>` is exactly
`<digits>`. -/
theorem takeTrailingDigits_eq (s0 ds : List Char)
    (hds : ∀ c ∈ ds, isDigitChar c = true) :
    takeTrailingDigits ((s0 ++ ['_']) ++ ds) = ds := by
  unfold takeTrailingDigits
  rw [List.reverse_append,
    takeWhile_append_all ds.reverse _ (fun c hc => hds c (List.mem_reverse.1 hc))]
  have hu : (s0 ++ ['_']).reverse = '_' :: s0.reverse := by
    rw [List.reverse_append]
    rfl
  rw [hu, List.takeWhile_cons]
  have h5 : isDigitChar '_' = false := by decide
  rw [h5]
  simp

/-- Helper: the front in front of the trailing digit run of
`<front>_<digits>` is exactly `<front>_`. -/
theorem dropTrailingDigits_eq (s0 ds : List Char)
    (hds : ∀ c ∈ ds, isDigitChar c = true) :
    dropTrailingDigits ((s0 ++ ['_']) ++ ds) = s0 ++ ['_'] := by
  unfold dropTrailingDigits
  rw [List.reverse_append,
    dropWhile_append_all ds.reverse _ (fun c hc => hds c (List.mem_reverse.1 hc))]
  have hu : (s0 ++ ['_']).reverse = '_' :: s0.reverse := by
    rw [List.reverse_append]
    rfl
  rw [hu, List.dropWhile_cons]
  have h5 : isDigitChar '_' = false := by decide
  rw [h5]
  simp

/-- Helper: a counter file name built from a stem ending in `_`, a padded
number and an extension parses back to that number under its own
convention. -/
theorem fileNumberOf_mk (stem ext : String) (s0 : List Char) (m : Nat)
    (hstem : stem.data = s0 ++ ['_']) (hm : m < 2 ^ 64) :
    fileNumberOf stem ext (stem ++ (⟨pad6 m⟩ : String) ++ ext) = some m := by
  rcases pad6_spec m with ⟨hne, hdig, hparse⟩
  have hdata : (stem ++ (⟨pad6 m⟩ : String) ++ ext).data = (stem.data ++ pad6 m) ++ ext.data := rfl
  unfold fileNumberOf
  rw [hdata]
  have hlen : ((stem.data ++ pad6 m) ++ ext.data).length - ext.data.length =
      (stem.data ++ pad6 m).length := by
    rw [List.length_append]
    omega
  have htake : ((stem.data ++ pad6 m) ++ ext.data).take
      (((stem.data ++ pad6 m) ++ ext.data).length - ext.data.length) = stem.data ++ pad6 m := by
    rw [hlen, List.take_left]
  rw [htake, hstem, takeTrailingDigits_eq s0 (pad6 m) hdig,
    dropTrailingDigits_eq s0 (pad6 m) hdig, hparse]
  rw [if_pos (List.isSuffixOf_iff_suffix.2 (List.suffix_append _ _)),
    if_pos ⟨hne, List.isSuffixOf_iff_suffix.2 (List.suffix_refl _)⟩, if_pos hm]

/-- Helper: the counter scan's fold never goes below its accumulator. -/
theorem foldl_counterMax_init (g : String → Option Nat) (files : List String) :
    ∀ acc, acc ≤ files.foldl
      (fun h f => match g f with | some n => max h n | none => h) acc := by
  induction files with
  | nil => intro acc; exact Nat.le_refl acc
  | cons f fs ih =>
    intro acc
    rw [List.foldl_cons]
    refine Nat.le_trans ?_ (ih _)
    rcases hg : g f with _ | n <;> simp [hg]

/-- Helper: the counter scan's result dominates the number of every
matching entry. -/
theorem mem_le_counterMax (g : String → Option Nat) (files : List String) :
    ∀ (acc : Nat) (f : String) (n : Nat), f ∈ files → g f = some n →
      n ≤ files.foldl (fun h f => match g f with | some k => max h k | none => h) acc := by
  induction files with
  | nil => intro acc f n hf _; exact absurd hf (List.not_mem_nil f)
  | cons f0 fs ih =>
    intro acc f n hf hn
    rw [List.foldl_cons]
    rcases List.mem_cons.1 hf with he | hmem
    · subst he
      rw [hn]
      exact Nat.le_trans (Nat.le_max_right acc n) (foldl_counterMax_init g fs _)
    · exact ih _ f n hmem hn

/-- Claim C4: both persistent counters resume from the highest existing
numeric suffix under their naming conventions and increment before use, so
as long as the `u64` counter does not overflow, no file persisted after a
restart collides with any existing cache file; in particular a cache
holding `command_000003.json` resumes at 3 and persists
`command_000004.json` next. -/
theorem counter_resumption :
    (∀ (files : List String) (k : Nat), 1 ≤ k →
      find_highest_command_number files + k < 2 ^ 64 →
      commandFileName files k ∉ files) ∧
    (∀ (files : List String) (k : Nat), 1 ≤ k →
      find_highest_response_number files + k < 2 ^ 64 →
      responseFileName files k ∉ files) ∧
    find_highest_command_number ["command_000003.json"] = 3 ∧
    commandFileName ["command_000003.json"] 1 = "command_000004.json" := by
  refine ⟨?_, ?_, by decide, by decide⟩
  · intro files k hk hbound hmem
    have hrt := fileNumberOf_mk "command_" ".json" "command".data
      (find_highest_command_number files + k) (by decide) hbound
    have hle2 : find_highest_command_number files + k ≤ find_highest_command_number files :=
      mem_le_counterMax (fileNumberOf "command_" ".json") files 0
        (commandFileName files k) (find_highest_command_number files + k) hmem hrt
    omega
  · intro files k hk hbound hmem
    have hrt := fileNumberOf_mk "response_" ".rsp" "response".data
      (find_highest_response_number files + k) (by decide) hbound
    have hle2 : find_highest_response_number files + k ≤ find_highest_response_number files :=
      mem_le_counterMax (fileNumberOf "response_" ".rsp") files 0
        (responseFileName files k) (find_highest_response_number files + k) hmem hrt
    omega

/-- Claim C4, witness: with `command_000003.json` present, the first
record persisted after restart is `command_000004.json`, which collides
with nothing in the cache. -/
theorem counter_resumption_witness :
    commandFileName ["command_000003.json"] 1 ∉ ["command_000003.json"] :=
  counter_resumption.1 ["command_000003.json"] 1 (by decide) (by decide)
